import Mathlib

/-!
Verification development for the TTools charting-view core: a shallow embedding of the
anchor/pivot layout resolver (WLayout), the preferred-size contract (WPreferredSize),
the flex-box arranger (WFlexLayout) and the axis/unit coordinate transforms
(WChartScaleTransform), together with proofs of the documented properties.

Modelling conventions:
  - C++ `int` is embedded as ℤ; C++ integer division truncates toward zero, so it is
    embedded as `Int.tdiv`.
  - C++ `float` is embedded as the exact rationals ℚ. Where a claim is about the
    IEEE-754 special values produced by a zero divisor, the value is tracked in the
    small carrier `FVal` (finite rational, or a signed infinity, or NaN); everywhere
    else the exact-rational view is used and float rounding error is abstracted away,
    so an exact equality in the model stands for equality up to floating tolerance.
  - `std::round` (round half away from zero) is embedded as `roundQ`.
  - Widgets are identified by their index in the parent's child list; a layout pass is
    embedded as the list of `setBounds` calls it performs, in order, as pairs of
    (child index, assigned rectangle).
-/

/-- Integer rectangle, standing for the JUCE `Rectangle<int>` (x, y, width, height). -/
structure RectI where
  x : Int
  y : Int
  w : Int
  h : Int
deriving DecidableEq

/-- Computable floor of a rational: the numerator divided (Euclidean) by the positive
denominator of the normalized representation. -/
def floorQ (q : ℚ) : Int := q.num / q.den

/-- Rounding half away from zero: the behaviour of `std::round`, used by
WLayout::LayoutBounds and by the flex extra-space computation. -/
def roundQ (q : ℚ) : Int := if q < 0 then -(floorQ (-q + 1/2)) else floorQ (q + 1/2)

/-- Anchor/pivot placement data of WLayout (WLayout.h lines 110-115); pivot, offset and
anchors as exact rationals. The `_borders` field of the source is reserved and never read
by LayoutBounds, so it is not represented. -/
structure WLayout where
  pivotX : ℚ
  pivotY : ℚ
  offX : ℚ
  offY : ℚ
  offW : ℚ
  offH : ℚ
  anchorL : ℚ
  anchorT : ℚ
  anchorR : ℚ
  anchorB : ℚ
deriving DecidableEq

/-- Default WLayout constructor (WLayout.h lines 18-23): pivot {0.5, 0.5},
offset {0,0,0,0}, anchors {0,0,1,1}. -/
def WLayout.ctor : WLayout :=
  { pivotX := 1/2, pivotY := 1/2
    offX := 0, offY := 0, offW := 0, offH := 0
    anchorL := 0, anchorT := 0, anchorR := 1, anchorB := 1 }

/-- Embedding of WLayout::LayoutBounds (WLayout.h lines 25-63): per-axis anchor
resolution in float (here exact ℚ) followed by `std::round` of x, y, width, height
independently. -/
def LayoutBounds (l : WLayout) (bParent : RectI) : RectI :=
  let parentX : ℚ := bParent.x
  let parentY : ℚ := bParent.y
  let parentW : ℚ := bParent.w
  let parentH : ℚ := bParent.h
  let xMin := parentX + l.anchorL * parentW + l.offX
  let yMin := parentY + l.anchorT * parentH + l.offY
  let xMax := parentX + l.anchorR * parentW - l.offW
  let yMax := parentY + l.anchorB * parentH - l.offH
  let w : ℚ := if l.anchorL ≠ l.anchorR then xMax - xMin else l.offW
  let x : ℚ := if l.anchorL ≠ l.anchorR then xMin + (1/2 - l.pivotX) * (xMax - xMin)
               else xMin - l.pivotX * l.offW
  let h : ℚ := if l.anchorT ≠ l.anchorB then yMax - yMin else l.offH
  let y : ℚ := if l.anchorT ≠ l.anchorB then yMin + (1/2 - l.pivotY) * (yMax - yMin)
               else yMin - l.pivotY * l.offH
  RectI.mk (roundQ x) (roundQ y) (roundQ w) (roundQ h)

/-- One-dimensional world/viewport mapping WChartScaleTransform::AxisTransform
(WChartTransform.h lines 58-106); the four float fields as exact rationals. -/
structure AxisTransform where
  worldStart : ℚ
  worldEnd : ℚ
  viewportStart : ℚ
  viewportEnd : ℚ
deriving DecidableEq

/-- Embedding of AxisTransform::getWorldSize (line 70). -/
def getWorldSize (t : AxisTransform) : ℚ := t.worldEnd - t.worldStart

/-- Embedding of AxisTransform::getViewportSize (line 73). -/
def getViewportSize (t : AxisTransform) : ℚ := t.viewportEnd - t.viewportStart

/-- Embedding of AxisTransform::getZoomLevel (line 74) in the exact-rational view, used
where the world range is non-degenerate; the zero-divisor behaviour of the same source
line is captured by getZoomLevelF below. -/
def getZoomLevel (t : AxisTransform) : ℚ := getViewportSize t / getWorldSize t

/-- Embedding of AxisTransform::setZoomLevel (lines 80-88): the viewport is resized to
worldSize * newZoom about the point at fractional position pivot of the current
viewport. -/
def setZoomLevel (t : AxisTransform) (newZoom pivot : ℚ) : AxisTransform :=
  let worldSize := getWorldSize t
  let newViewportSize := worldSize * newZoom
  let currentCenter := t.viewportStart + getViewportSize t * pivot
  { t with
    viewportStart := currentCenter - newViewportSize * pivot
    viewportEnd := currentCenter - newViewportSize * pivot + newViewportSize }

/-- Embedding of std::clamp as used in AxisTransform::zoomIn. -/
def clampQ (v lo hi : ℚ) : ℚ := if v < lo then lo else if hi < v then hi else v

/-- Embedding of AxisTransform::zoomIn (lines 89-95): the zoom level is stepped, clamped
to [0,1], and applied only when it actually changed. The source's locals zoom and
nextZoom are inlined. -/
def zoomIn (t : AxisTransform) (zoomStep pivot : ℚ) : AxisTransform :=
  if clampQ (getZoomLevel t + zoomStep) 0 1 ≠ getZoomLevel t
  then setZoomLevel t (clampQ (getZoomLevel t + zoomStep) 0 1) pivot
  else t

/-- Embedding of AxisTransform::zoomOut (lines 96-98): zoomIn with the step negated. -/
def zoomOut (t : AxisTransform) (zoomStep pivot : ℚ) : AxisTransform :=
  zoomIn t (-zoomStep) pivot

/-- Value of a float computation: either a finite exact rational or one of the IEEE-754
special values that a zero divisor produces. -/
inductive FVal where
  | fin (q : ℚ)
  | posInf
  | negInf
  | nan
deriving DecidableEq

/-- IEEE-754 division of finite values allowing a zero divisor: a nonzero numerator over
+0 gives the correspondingly signed infinity and 0/+0 gives NaN. The degenerate divisors
of this code arise as x - x, which is +0 in IEEE arithmetic. -/
def fdiv (a b : ℚ) : FVal :=
  if b = 0 then (if a = 0 then FVal.nan else if 0 < a then FVal.posInf else FVal.negInf)
  else FVal.fin (a / b)

/-- Adding a finite float to an FVal: an infinity or NaN absorbs the addition. -/
def faddFin (v : FVal) (c : ℚ) : FVal :=
  match v with
  | FVal.fin q => FVal.fin (q + c)
  | v => v

/-- Whether an FVal is an infinity or NaN. -/
def FVal.isNonFinite : FVal → Bool
  | FVal.fin _ => false
  | _ => true

/-- IEEE view of AxisTransform::getZoomLevel (line 74): the same unguarded division,
keeping the special value a degenerate world range produces. -/
def getZoomLevelF (t : AxisTransform) : FVal := fdiv (getViewportSize t) (getWorldSize t)

/-- Embedding of UnitTransform::mapValue (WChartTransform.h lines 156-159): linear
interpolation from the range [inMin, inMax] to the range [outMin, outMax], in the
exact-rational view. -/
def mapValue (x inMin inMax outMin outMax : ℚ) : ℚ :=
  (x - inMin) * (outMax - outMin) / (inMax - inMin) + outMin

/-- IEEE view of UnitTransform::mapValue (lines 156-159): the same computation, keeping
the special value a degenerate source range (inMax == inMin) produces. -/
def mapValueF (x inMin inMax outMin outMax : ℚ) : FVal :=
  faddFin (fdiv ((x - inMin) * (outMax - outMin)) (inMax - inMin)) outMin

/-- Unit range of WChartScaleTransform::UnitTransform (WChartTransform.h lines 108-160).
The non-owning reference to the AxisTransform is modelled by passing the axis transform
explicitly to each conversion. -/
structure UnitTransform where
  worldStart : ℚ
  worldEnd : ℚ
deriving DecidableEq

/-- Embedding of UnitTransform::axisWorldToUnitWorld (lines 130-132). -/
def axisWorldToUnitWorld (axisT : AxisTransform) (u : UnitTransform) (k : ℚ) : ℚ :=
  mapValue k axisT.worldStart axisT.worldEnd u.worldStart u.worldEnd

/-- Embedding of UnitTransform::unitWorldToAxisWorld (lines 133-135). -/
def unitWorldToAxisWorld (axisT : AxisTransform) (u : UnitTransform) (k : ℚ) : ℚ :=
  mapValue k u.worldStart u.worldEnd axisT.worldStart axisT.worldEnd

/-- Sizing contract WPreferredSize (WLayout.h lines 117-245), data fields only; the
listener list is modelled separately below. -/
structure WPreferredSize where
  ignoreLayout : Bool
  minWidth : Int
  minHeight : Int
  preferredWidth : Int
  preferredHeight : Int
  flexibleWidth : Int
  flexibleHeight : Int
deriving DecidableEq, Inhabited

/-- Data a BaseComponent exposes to the layout passes: its WPreferredSize and its
WLayout. -/
structure BaseData where
  ps : WPreferredSize
  layout : WLayout
deriving DecidableEq

/-- Child entry of a container: either a BaseComponent (the dynamic_cast of the layout
code succeeds) or some other juce Component (the dynamic_cast fails and the child is
skipped). -/
inductive WComponent where
  | base (d : BaseData)
  | plain
deriving DecidableEq

/-- Embedding of WParentLayout::getValidChildren (WLayout.cpp lines 22-34), index-tagged:
the children that are BaseComponents with ignoreLayout false, in order, each paired with
its position in the original child list (standing for the component's identity). -/
def getValidChildrenGo : Nat → List WComponent → List (Nat × BaseData)
  | _, [] => []
  | i, WComponent.base d :: rest =>
      if d.ps.ignoreLayout then getValidChildrenGo (i+1) rest
      else (i, d) :: getValidChildrenGo (i+1) rest
  | i, WComponent.plain :: rest => getValidChildrenGo (i+1) rest

/-- Valid children of a child list, starting the index count at 0. -/
def getValidChildren (children : List WComponent) : List (Nat × BaseData) :=
  getValidChildrenGo 0 children

/-- Embedding of WParentLayout::applyLayout (WLayout.cpp lines 14-20): each valid child
receives the bounds its own WLayout resolves against the parent rectangle. The result is
the sequence of setBounds calls (child index, assigned rectangle). -/
def parentApplyLayout (bParent : RectI) (children : List WComponent) : List (Nat × RectI) :=
  (getValidChildren children).map (fun c => (c.1, LayoutBounds c.2.layout bParent))

/-- Main-axis direction of WFlexLayout (WFlexLayout.h line 17). -/
inductive FlexDirection where
  | Row
  | Column
deriving DecidableEq

/-- Main-axis distribution policy of WFlexLayout (WFlexLayout.h lines 18-26). -/
inductive JustifyContent where
  | FlexStart
  | FlexEnd
  | Center
  | SpaceBetween
  | SpaceAround
  | SpaceEvenly
  | Stretch
deriving DecidableEq

/-- Cross-axis placement policy of WFlexLayout (WFlexLayout.h lines 27-32). -/
inductive AlignItems where
  | Stretch
  | FlexStart
  | FlexEnd
  | Center
deriving DecidableEq

/-- Wrapping policy of WFlexLayout (WFlexLayout.h lines 33-36). -/
inductive FlexWrap where
  | NoWrap
  | Wrap
deriving DecidableEq

/-- WFlexLayout::Options (WFlexLayout.h lines 38-44). -/
structure FlexOptions where
  direction : FlexDirection
  justify : JustifyContent
  align : AlignItems
  wrap : FlexWrap
  spacing : Int
deriving DecidableEq

/-- Main-axis preferred extent of a child: preferredWidth for Row, preferredHeight for
Column. -/
def prefMain (dir : FlexDirection) (p : WPreferredSize) : Int :=
  if dir = FlexDirection.Row then p.preferredWidth else p.preferredHeight

/-- Cross-axis preferred extent of a child. -/
def prefCross (dir : FlexDirection) (p : WPreferredSize) : Int :=
  if dir = FlexDirection.Row then p.preferredHeight else p.preferredWidth

/-- Main-axis flexible weight of a child. -/
def flexMain (dir : FlexDirection) (p : WPreferredSize) : Int :=
  if dir = FlexDirection.Row then p.flexibleWidth else p.flexibleHeight

/-- Main-axis minimum extent of a child. -/
def minMain (dir : FlexDirection) (p : WPreferredSize) : Int :=
  if dir = FlexDirection.Row then p.minWidth else p.minHeight

/-- Main-axis extent of an assigned rectangle (width for Row, height for Column). -/
def mainExtent (dir : FlexDirection) (r : RectI) : Int :=
  if dir = FlexDirection.Row then r.w else r.h

/-- Embedding of the flushLine lambda of WFlexLayout::applyLayout (WFlexLayout.cpp lines
83-132): walk the line children from the given start cursor, compute each child's main
size (flex extra via float round, or the stretch size, both clamped below by the
minimum), its cross placement from align within the line's cross extent, emit the
setBounds call and advance the local cursor by sizeMain + spacing. -/
def flushLine (opts : FlexOptions) (remaining totalFlexible stretchSize : Int)
    (stretchItems : Bool) (crossPos lineCross : Int) :
    List (Nat × WPreferredSize) → Int → List (Nat × RectI)
  | [], _ => []
  | (i, pref) :: rest, localMainPos =>
      let prefM := prefMain opts.direction pref
      let flex := flexMain opts.direction pref
      let minM := minMain opts.direction pref
      let prefC := prefCross opts.direction pref
      let flexFactor : ℚ :=
        if 0 < totalFlexible ∧ 0 < flex then (flex : ℚ) / (totalFlexible : ℚ) else 0
      let extraMain : Int := if stretchItems then 0 else roundQ (flexFactor * (remaining : ℚ))
      let sizeMain : Int :=
        if stretchItems then max minM stretchSize else max minM (prefM + extraMain)
      let posCross : Int :=
        match opts.align with
        | AlignItems.Center => Int.tdiv (lineCross - prefC) 2
        | AlignItems.FlexEnd => lineCross - prefC
        | _ => 0
      let sizeCross : Int :=
        match opts.align with
        | AlignItems.Stretch => lineCross
        | _ => prefC
      let childBounds : RectI :=
        if opts.direction = FlexDirection.Row then
          RectI.mk localMainPos (crossPos + posCross) sizeMain sizeCross
        else
          RectI.mk (crossPos + posCross) localMainPos sizeCross sizeMain
      (i, childBounds) ::
        flushLine opts remaining totalFlexible stretchSize stretchItems crossPos lineCross
          rest (localMainPos + sizeMain + opts.spacing)

/-- Embedding of the packing loop of WFlexLayout::applyLayout (WFlexLayout.cpp lines
134-157) together with the trailing flush of line 157. State: unprocessed children, the
current line, the main cursor for the next flush, the cross cursor, the current line's
cross extent and the accumulated main usage. On wrap (wrap enabled, next preferred main
extent would overflow, line non-empty) the line is flushed at the current main cursor,
the cross cursor advances by the line's cross extent plus spacing, and the main cursor
resets to the parent origin. -/
def flexLoop (opts : FlexOptions) (bParent : RectI)
    (remaining totalFlexible stretchSize : Int) (stretchItems : Bool) (mainSize : Int) :
    List (Nat × WPreferredSize) → List (Nat × WPreferredSize) → Int → Int → Int → Int →
    List (Nat × RectI)
  | [], lineChildren, mainPos, crossPos, lineCross, _ =>
      if lineChildren = [] then []
      else
        flushLine opts remaining totalFlexible stretchSize stretchItems crossPos lineCross
          lineChildren mainPos
  | (i, pref) :: rest, lineChildren, mainPos, crossPos, lineCross, usedMain =>
      if opts.wrap = FlexWrap.Wrap ∧ mainSize < usedMain + prefMain opts.direction pref
          ∧ lineChildren ≠ [] then
        flushLine opts remaining totalFlexible stretchSize stretchItems crossPos lineCross
            lineChildren mainPos
          ++ flexLoop opts bParent remaining totalFlexible stretchSize stretchItems mainSize
              rest [(i, pref)]
              (if opts.direction = FlexDirection.Row then bParent.x else bParent.y)
              (crossPos + lineCross + opts.spacing)
              (max 0 (prefCross opts.direction pref))
              (prefMain opts.direction pref + opts.spacing)
      else
        flexLoop opts bParent remaining totalFlexible stretchSize stretchItems mainSize
          rest (lineChildren ++ [(i, pref)]) mainPos crossPos
          (max lineCross (prefCross opts.direction pref))
          (usedMain + prefMain opts.direction pref + opts.spacing)

/-- Valid children of the flex pass, reduced to their preferred sizes. WFlexLayout's
inline filter (WFlexLayout.cpp lines 24-38) is the same dynamic_cast + ignoreLayout
filter as getValidChildren. -/
def flexValidChildren (children : List WComponent) : List (Nat × WPreferredSize) :=
  (getValidChildren children).map (fun c => (c.1, c.2.ps))

/-- Container main size of the flex pass: parent width for Row, height for Column. -/
def flexMainSize (dir : FlexDirection) (bParent : RectI) : Int :=
  if dir = FlexDirection.Row then bParent.w else bParent.h

/-- Embedding of WFlexLayout::applyLayout (WFlexLayout.cpp lines 19-158): filter and
total accumulation (lines 24-44), justify-derived cursor offset and gap (lines 48-74),
stretch size (lines 76-79), then the packing loop. C++ int division truncates toward
zero, hence Int.tdiv. The result is the sequence of setBounds calls. -/
def applyFlexLayout (opts : FlexOptions) (bParent : RectI) (children : List WComponent) :
    List (Nat × RectI) :=
  let validChildren := flexValidChildren children
  if validChildren = [] then [] else
  let count : Int := validChildren.length
  let totalPreferredMain : Int :=
    (validChildren.map (fun c => prefMain opts.direction c.2)).sum
  let totalFlexible : Int :=
    (validChildren.map (fun c => flexMain opts.direction c.2)).sum
  let mainSize : Int := flexMainSize opts.direction bParent
  let remaining : Int := mainSize - totalPreferredMain - (count - 1) * opts.spacing
  let mainPos0 : Int := if opts.direction = FlexDirection.Row then bParent.x else bParent.y
  let crossPos0 : Int := if opts.direction = FlexDirection.Row then bParent.y else bParent.x
  let space : Int :=
    match opts.justify with
    | JustifyContent.SpaceBetween =>
        if 1 < validChildren.length then Int.tdiv remaining (count - 1) else 0
    | JustifyContent.SpaceAround =>
        if 0 < validChildren.length then Int.tdiv remaining count else 0
    | JustifyContent.SpaceEvenly =>
        if 0 < validChildren.length then Int.tdiv remaining (count + 1) else 0
    | _ => 0
  let mainPos : Int :=
    match opts.justify with
    | JustifyContent.Center => mainPos0 + Int.tdiv remaining 2
    | JustifyContent.FlexEnd => mainPos0 + remaining
    | JustifyContent.SpaceAround => mainPos0 + Int.tdiv space 2
    | JustifyContent.SpaceEvenly => mainPos0 + space
    | _ => mainPos0
  let stretchItems : Bool := if opts.justify = JustifyContent.Stretch then true else false
  let stretchSize : Int :=
    if stretchItems ∧ 0 < validChildren.length then
      Int.tdiv (mainSize - (count - 1) * opts.spacing) count
    else 0
  flexLoop opts bParent remaining totalFlexible stretchSize stretchItems mainSize
    validChildren [] mainPos crossPos0 0 0

/-- Three BaseComponent children with preferred size 10 x 10, no minimum, no
flexibility. -/
def stretchChildren3 : List WComponent :=
  [WComponent.base (BaseData.mk (WPreferredSize.mk false 0 0 10 10 0 0) WLayout.ctor),
   WComponent.base (BaseData.mk (WPreferredSize.mk false 0 0 10 10 0 0) WLayout.ctor),
   WComponent.base (BaseData.mk (WPreferredSize.mk false 0 0 10 10 0 0) WLayout.ctor)]

/-- Row / justify stretch / no wrap with spacing 0. -/
def stretchOptions0 : FlexOptions :=
  FlexOptions.mk FlexDirection.Row JustifyContent.Stretch AlignItems.Stretch FlexWrap.NoWrap 0

/-- Row / justify stretch / no wrap with spacing 10. -/
def stretchOptions10 : FlexOptions :=
  FlexOptions.mk FlexDirection.Row JustifyContent.Stretch AlignItems.Stretch FlexWrap.NoWrap 10

/-- Single child list whose only entry has ignoreLayout = true. -/
def ignoredOnlyChildren : List WComponent :=
  [WComponent.base (BaseData.mk (WPreferredSize.mk true 0 0 50 20 0 0) WLayout.ctor)]

/-- Line partition performed by the packing loop of WFlexLayout::applyLayout
(WFlexLayout.cpp lines 134-157): the same greedy wrap condition and state updates as the
loop, recording which children share a line instead of the emitted rectangles. -/
def buildLinesGo (wrap : FlexWrap) (dir : FlexDirection) (mainSize spacing : Int) :
    List (Nat × WPreferredSize) → List (Nat × WPreferredSize) → Int →
    List (List (Nat × WPreferredSize))
  | [], lineChildren, _ => if lineChildren = [] then [] else [lineChildren]
  | c :: rest, lineChildren, usedMain =>
      if wrap = FlexWrap.Wrap ∧ mainSize < usedMain + prefMain dir c.2 ∧ lineChildren ≠ []
      then
        lineChildren ::
          buildLinesGo wrap dir mainSize spacing rest [c] (prefMain dir c.2 + spacing)
      else
        buildLinesGo wrap dir mainSize spacing rest (lineChildren ++ [c])
          (usedMain + prefMain dir c.2 + spacing)

/-- Lines of a flex pass, starting from an empty line and zero main usage. -/
def buildLines (wrap : FlexWrap) (dir : FlexDirection) (mainSize spacing : Int)
    (cs : List (Nat × WPreferredSize)) : List (List (Nat × WPreferredSize)) :=
  buildLinesGo wrap dir mainSize spacing cs [] 0

/-- Cumulative main-axis usage of a line: the sum of its children's preferred main
extents plus the inter-child spacing. -/
def lineUsage (dir : FlexDirection) (spacing : Int) (line : List (Nat × WPreferredSize)) :
    Int :=
  (line.map (fun c => prefMain dir c.2)).sum + ((line.length : Int) - 1) * spacing

/-- Preferred size with the given preferred width, height 10, no minimum, no
flexibility. -/
def wrapPS (pw : Int) : WPreferredSize := WPreferredSize.mk false 0 0 pw 10 0 0

/-- Indexed preferred sizes of three wrap-test children with preferred widths
60, 60, 30. -/
def wrapChildrenPS : List (Nat × WPreferredSize) := [(0, wrapPS 60), (1, wrapPS 60), (2, wrapPS 30)]

/-- Listener pointer of the WPreferredSize listener list: none stands for the C++ null
pointer, some n for the listener object with identity n. -/
abbrev LPtr := Option Nat

/-- Embedding of WPreferredSize::addListener (WLayout.h lines 220-224): a null listener
or one already present leaves the list unchanged; otherwise it is appended. -/
def addListener (ls : List LPtr) (l : LPtr) : List LPtr :=
  if l = none then ls else if l ∈ ls then ls else ls ++ [l]

/-- Embedding of WPreferredSize::removeListener (WLayout.h lines 226-229): erase-remove
of every occurrence of the listener. -/
def removeListener (ls : List LPtr) (l : LPtr) : List LPtr :=
  ls.filter (fun x => decide (x ≠ l))

/-- Embedding of WPreferredSize::notifyListeners (WLayout.h lines 241-244): every
non-null entry receives one onPreferredSizeChange call, in list order; the result is the
sequence of invocation targets. -/
def notifyCalls (ls : List LPtr) : List LPtr :=
  ls.filter (fun x => decide (x ≠ none))

/-- Listener-list states reachable from the default-constructed empty list through
addListener and removeListener, the only operations that mutate the list. -/
inductive ListenersReachable : List LPtr → Prop
  | nil : ListenersReachable []
  | add (ls : List LPtr) (l : LPtr) : ListenersReachable ls →
      ListenersReachable (addListener ls l)
  | remove (ls : List LPtr) (l : LPtr) : ListenersReachable ls →
      ListenersReachable (removeListener ls l)

theorem floorQ_eq_floor (q : ℚ) : floorQ q = ⌊q⌋ := Rat.floor_def.symm

theorem roundQ_intCast (n : Int) : roundQ (n : ℚ) = n := by
  unfold roundQ
  rw [floorQ_eq_floor, floorQ_eq_floor]
  rcases lt_or_le (n : ℚ) 0 with h | h
  · rw [if_pos h]
    rw [show -(n : ℚ) + 1/2 = ((-n : Int) : ℚ) + 1/2 by push_cast; ring]
    rw [Int.floor_int_add]
    norm_num
  · rw [if_neg (not_lt.mpr h)]
    rw [show (n : ℚ) + 1/2 = ((n : Int) : ℚ) + 1/2 by norm_num]
    rw [Int.floor_int_add]
    norm_num

theorem roundQ_zero : roundQ 0 = 0 := by
  have h := roundQ_intCast 0
  simpa using h

theorem roundQ_eq_of_eq_intCast (q : ℚ) (n : Int) (h : q = (n : ℚ)) : roundQ q = n := by
  rw [h, roundQ_intCast]

/-- C5: for anchors {0,0,1,1}, offset {0,0,0,0} and pivot {0.5,0.5} (exactly the WLayout
default constructor), LayoutBounds returns the parent rectangle unchanged, for every
parent rectangle. -/
theorem anchor_full_stretch_identity (p : RectI) : LayoutBounds WLayout.ctor p = p := by
  obtain ⟨px, py, pw, ph⟩ := p
  simp only [LayoutBounds, WLayout.ctor]
  norm_num
  refine ⟨?_, ?_, ?_, ?_⟩
  · exact roundQ_eq_of_eq_intCast _ px (by ring)
  · exact roundQ_eq_of_eq_intCast _ py (by ring)
  · exact roundQ_eq_of_eq_intCast _ pw (by ring)
  · exact roundQ_eq_of_eq_intCast _ ph (by ring)

/-- C3 counterexample: on a degenerate world range the code does not surface an error; it
performs the division and silently produces an infinity. Concretely, getZoomLevel on the
AxisTransform with worldStart = worldEnd = 5 and viewport [0,10] yields +infinity, and
mapValue with degenerate source range inMin = inMax = 2 yields +infinity as well. -/
theorem degenerate_range_silent_infinity :
    getZoomLevelF (AxisTransform.mk 5 5 0 10) = FVal.posInf ∧
    mapValueF 3 2 2 0 1 = FVal.posInf := by
  constructor
  · simp [getZoomLevelF, fdiv, getWorldSize, getViewportSize]
  · norm_num [mapValueF, fdiv, faddFin]

theorem faddFin_isNonFinite (v : FVal) (c : ℚ) :
    (faddFin v c).isNonFinite = v.isNonFinite := by
  cases v <;> rfl

/-- C3 amended: when worldEnd = worldStart in AxisTransform::getZoomLevel, or
inMax = inMin in UnitTransform::mapValue, the unguarded division by the zero-sized range
silently produces a non-finite value (a signed infinity or NaN); no error is reported,
so non-degeneracy is an unchecked caller precondition. -/
theorem degenerate_range_nonfinite (t : AxisTransform) (x inMin outMin outMax : ℚ)
    (hw : t.worldEnd = t.worldStart) :
    (getZoomLevelF t).isNonFinite = true ∧
    (mapValueF x inMin inMin outMin outMax).isNonFinite = true := by
  constructor
  · unfold getZoomLevelF fdiv getWorldSize
    rw [hw, sub_self, if_pos rfl]
    split
    · rfl
    · split <;> rfl
  · unfold mapValueF fdiv
    rw [sub_self, if_pos rfl, faddFin_isNonFinite]
    split
    · rfl
    · split <;> rfl

/-- Witness for degenerate_range_nonfinite at the concrete degenerate transform with
worldStart = worldEnd = 7 and viewport [1,1] (zero numerator, hence NaN). -/
theorem degenerate_range_nonfinite_witness :
    (getZoomLevelF (AxisTransform.mk 7 7 1 1)).isNonFinite = true ∧
    (mapValueF 9 4 4 2 3).isNonFinite = true :=
  degenerate_range_nonfinite (AxisTransform.mk 7 7 1 1) 9 4 2 3 rfl

theorem zoom_after_set (t : AxisTransform) (z p : ℚ) (hw : t.worldEnd ≠ t.worldStart) :
    getZoomLevel (setZoomLevel t z p) = z := by
  have hws : t.worldEnd - t.worldStart ≠ 0 := sub_ne_zero.mpr hw
  simp only [getZoomLevel, setZoomLevel, getViewportSize, getWorldSize]
  field_simp

theorem pivot_fixed_after_set (t : AxisTransform) (z p : ℚ) :
    (setZoomLevel t z p).viewportStart + getViewportSize (setZoomLevel t z p) * p
      = t.viewportStart + getViewportSize t * p := by
  simp only [setZoomLevel, getViewportSize]
  ring

/-- C4: for every AxisTransform with non-degenerate world range and every zoom z and
pivot in [0,1], setZoomLevel makes getZoomLevel return exactly z, and the viewport point
at fractional position pivot is kept fixed. -/
theorem axis_setZoomLevel_zoom_and_pivot_fixed (t : AxisTransform) (z p : ℚ)
    (hw : t.worldEnd ≠ t.worldStart)
    (_hz0 : 0 ≤ z) (_hz1 : z ≤ 1) (_hp0 : 0 ≤ p) (_hp1 : p ≤ 1) :
    getZoomLevel (setZoomLevel t z p) = z ∧
    (setZoomLevel t z p).viewportStart + getViewportSize (setZoomLevel t z p) * p
      = t.viewportStart + getViewportSize t * p :=
  ⟨zoom_after_set t z p hw, pivot_fixed_after_set t z p⟩

/-- Witness for axis_setZoomLevel_zoom_and_pivot_fixed: world [0,100], viewport [0,50],
zoom 1, pivot 0. -/
theorem axis_setZoomLevel_witness :
    getZoomLevel (setZoomLevel (AxisTransform.mk 0 100 0 50) 1 0) = 1 ∧
    (setZoomLevel (AxisTransform.mk 0 100 0 50) 1 0).viewportStart
        + getViewportSize (setZoomLevel (AxisTransform.mk 0 100 0 50) 1 0) * 0
      = (AxisTransform.mk 0 100 0 50).viewportStart
        + getViewportSize (AxisTransform.mk 0 100 0 50) * 0 :=
  axis_setZoomLevel_zoom_and_pivot_fixed (AxisTransform.mk 0 100 0 50) 1 0
    (by norm_num) (by norm_num) (by norm_num) (by norm_num) (by norm_num)

/-- C7: the two mapValue-based world conversions of a UnitTransform are mutually inverse
whenever both the axis world range and the unit world range are non-degenerate. -/
theorem unit_axis_roundtrip (axisT : AxisTransform) (u : UnitTransform) (x : ℚ)
    (ha : axisT.worldEnd ≠ axisT.worldStart) (hu : u.worldEnd ≠ u.worldStart) :
    unitWorldToAxisWorld axisT u (axisWorldToUnitWorld axisT u x) = x := by
  have h1 : axisT.worldEnd - axisT.worldStart ≠ 0 := sub_ne_zero.mpr ha
  have h2 : u.worldEnd - u.worldStart ≠ 0 := sub_ne_zero.mpr hu
  unfold unitWorldToAxisWorld axisWorldToUnitWorld mapValue
  field_simp
  ring

/-- Witness for unit_axis_roundtrip: axis world [0,100], unit world [3,7], x = 25. -/
theorem unit_axis_roundtrip_witness :
    unitWorldToAxisWorld (AxisTransform.mk 0 100 0 50) (UnitTransform.mk 3 7)
      (axisWorldToUnitWorld (AxisTransform.mk 0 100 0 50) (UnitTransform.mk 3 7) 25) = 25 :=
  unit_axis_roundtrip (AxisTransform.mk 0 100 0 50) (UnitTransform.mk 3 7) 25
    (by norm_num) (by norm_num)

theorem clampQ_eq_self (v lo hi : ℚ) (h0 : ¬ v < lo) (h1 : ¬ hi < v) :
    clampQ v lo hi = v := by
  unfold clampQ
  rw [if_neg h0, if_neg h1]

/-- C6: zoomIn(s, p) followed by zoomOut(s, p) restores the original viewport interval
exactly, for every starting state with non-degenerate world range whose zoom level lies
in [0,1] and whose stepped zoom level lies strictly inside (0,1), so that the clamp to
[0,1] alters neither zoom level of the round trip. -/
theorem axis_zoomIn_zoomOut_roundtrip (t : AxisTransform) (s p : ℚ)
    (hw : t.worldEnd ≠ t.worldStart)
    (h0 : 0 ≤ getZoomLevel t) (h1 : getZoomLevel t ≤ 1)
    (h2 : 0 < getZoomLevel t + s) (h3 : getZoomLevel t + s < 1) :
    (zoomOut (zoomIn t s p) s p).viewportStart = t.viewportStart ∧
    (zoomOut (zoomIn t s p) s p).viewportEnd = t.viewportEnd := by
  have hws : t.worldEnd - t.worldStart ≠ 0 := sub_ne_zero.mpr hw
  have hcl : clampQ (getZoomLevel t + s) 0 1 = getZoomLevel t + s :=
    clampQ_eq_self _ _ _ (not_lt.mpr h2.le) (not_lt.mpr h3.le)
  have hcl0 : clampQ (getZoomLevel t) 0 1 = getZoomLevel t :=
    clampQ_eq_self _ _ _ (not_lt.mpr h0) (not_lt.mpr h1)
  by_cases hs : s = 0
  · subst hs
    have e1 : zoomIn t 0 p = t := by
      unfold zoomIn
      rw [add_zero, hcl0, if_neg (by simp)]
    rw [e1, zoomOut, neg_zero, e1]
    exact ⟨rfl, rfl⟩
  · have hne : clampQ (getZoomLevel t + s) 0 1 ≠ getZoomLevel t := by
      rw [hcl]
      intro h
      exact hs (by linarith)
    have e1 : zoomIn t s p = setZoomLevel t (getZoomLevel t + s) p := by
      unfold zoomIn
      rw [if_pos hne, hcl]
    have f1 : (setZoomLevel t (getZoomLevel t + s) p).worldEnd = t.worldEnd := rfl
    have f2 : (setZoomLevel t (getZoomLevel t + s) p).worldStart = t.worldStart := rfl
    have f3 : getZoomLevel (setZoomLevel t (getZoomLevel t + s) p) = getZoomLevel t + s :=
      zoom_after_set t (getZoomLevel t + s) p hw
    have e2 : zoomOut (zoomIn t s p) s p
        = setZoomLevel (setZoomLevel t (getZoomLevel t + s) p) (getZoomLevel t) p := by
      rw [e1, zoomOut]
      unfold zoomIn
      rw [f3, show getZoomLevel t + s + -s = getZoomLevel t by ring, hcl0,
        if_pos (fun h => hs (by linarith))]
    rw [e2]
    constructor
    · simp only [setZoomLevel, getZoomLevel, getViewportSize, getWorldSize]
      field_simp
    · simp only [setZoomLevel, getZoomLevel, getViewportSize, getWorldSize]
      field_simp

/-- Witness for axis_zoomIn_zoomOut_roundtrip: world [0,100], viewport [0,50]
(zoom level 1/2), step 1/4, pivot 1/2. -/
theorem axis_zoomIn_zoomOut_roundtrip_witness :
    (zoomOut (zoomIn (AxisTransform.mk 0 100 0 50) (1/4) (1/2)) (1/4) (1/2)).viewportStart
      = (AxisTransform.mk 0 100 0 50).viewportStart ∧
    (zoomOut (zoomIn (AxisTransform.mk 0 100 0 50) (1/4) (1/2)) (1/4) (1/2)).viewportEnd
      = (AxisTransform.mk 0 100 0 50).viewportEnd :=
  axis_zoomIn_zoomOut_roundtrip (AxisTransform.mk 0 100 0 50) (1/4) (1/2)
    (by norm_num)
    (by norm_num [getZoomLevel, getViewportSize, getWorldSize])
    (by norm_num [getZoomLevel, getViewportSize, getWorldSize])
    (by norm_num [getZoomLevel, getViewportSize, getWorldSize])
    (by norm_num [getZoomLevel, getViewportSize, getWorldSize])

/-- C1 (code evaluated at the spec's scenario): container (0,0,300,100), three children
of preferred size 50 x 20 with flexible weight 0, spacing 10, direction row, justify
space-between. The code places the children at x = 0, 60, 120 (each 50 wide): flushLine
advances the cursor by size + spacing only, and the gap `space` = remaining / 2 = 65
computed for space-between is never applied, so the spec's expected x = 0, 125, 250 is
not produced. -/
theorem flex_spaceBetween_scenario_eval :
    applyFlexLayout
        (FlexOptions.mk FlexDirection.Row JustifyContent.SpaceBetween AlignItems.Stretch
          FlexWrap.NoWrap 10)
        (RectI.mk 0 0 300 100)
        [WComponent.base (BaseData.mk (WPreferredSize.mk false 0 0 50 20 0 0) WLayout.ctor),
         WComponent.base (BaseData.mk (WPreferredSize.mk false 0 0 50 20 0 0) WLayout.ctor),
         WComponent.base (BaseData.mk (WPreferredSize.mk false 0 0 50 20 0 0) WLayout.ctor)]
      = [(0, RectI.mk 0 0 50 20), (1, RectI.mk 60 0 50 20), (2, RectI.mk 120 0 50 20)] := by
  simp [applyFlexLayout, flexValidChildren, flexMainSize, getValidChildren,
    getValidChildrenGo, flexLoop, flushLine, prefMain, prefCross, flexMain, minMain,
    roundQ_zero]

theorem flushLine_map_mainSize (opts : FlexOptions)
    (remaining totalFlexible stretchSize crossPos lineCross : Int) :
    ∀ (line : List (Nat × WPreferredSize)) (localMainPos : Int),
      (flushLine opts remaining totalFlexible stretchSize true crossPos lineCross line
          localMainPos).map (fun a => mainExtent opts.direction a.2)
        = line.map (fun c => max (minMain opts.direction c.2) stretchSize) := by
  intro line
  induction line with
  | nil => intro lp; simp [flushLine]
  | cons c rest ih =>
      intro lp
      obtain ⟨i, pref⟩ := c
      simp only [flushLine, List.map_cons]
      rw [ih]
      by_cases hdir : opts.direction = FlexDirection.Row
      · simp [mainExtent, hdir]
      · simp [mainExtent, hdir]

theorem flexLoop_noWrap_mainSizes (opts : FlexOptions) (bParent : RectI)
    (remaining totalFlexible stretchSize mainSize : Int)
    (hwrap : opts.wrap = FlexWrap.NoWrap) :
    ∀ (cs line : List (Nat × WPreferredSize)) (mainPos crossPos lineCross usedMain : Int),
      (flexLoop opts bParent remaining totalFlexible stretchSize true mainSize cs line
          mainPos crossPos lineCross usedMain).map (fun a => mainExtent opts.direction a.2)
        = if line = [] ∧ cs = [] then []
          else (line ++ cs).map (fun c => max (minMain opts.direction c.2) stretchSize) := by
  intro cs
  induction cs with
  | nil =>
      intro line mp cp lc um
      simp only [flexLoop]
      by_cases hl : line = []
      · simp [hl]
      · rw [if_neg hl, if_neg (by simp [hl]), flushLine_map_mainSize]
        simp
  | cons c rest ih =>
      intro line mp cp lc um
      obtain ⟨i, pref⟩ := c
      simp only [flexLoop]
      rw [if_neg (by simp [hwrap])]
      rw [ih]
      rw [if_neg (by simp), if_neg (by simp)]
      simp

/-- C2 amended: with justify = stretch and wrapping disabled, every child's assigned
main size is max(minimum, stretchSize) where stretchSize is the C++ integer division
(containerMainSize - (n-1)*spacing) / n truncated toward zero; the sum of the assigned
main extents plus (n-1)*spacing equals the container main size provided every child's
minimum is at most stretchSize and n divides containerMainSize - (n-1)*spacing exactly
(the truncation otherwise loses up to n-1 pixels, see the counterexample). -/
theorem flex_stretch_sizes_and_sum (opts : FlexOptions) (bParent : RectI)
    (children : List WComponent)
    (hj : opts.justify = JustifyContent.Stretch) (hwrap : opts.wrap = FlexWrap.NoWrap)
    (hne : flexValidChildren children ≠ []) :
    ((applyFlexLayout opts bParent children).map (fun a => mainExtent opts.direction a.2)
        = (flexValidChildren children).map (fun c => max (minMain opts.direction c.2)
            (Int.tdiv
              (flexMainSize opts.direction bParent
                - (((flexValidChildren children).length : Int) - 1) * opts.spacing)
              ((flexValidChildren children).length : Int))))
    ∧ ((∀ c ∈ flexValidChildren children,
          minMain opts.direction c.2
            ≤ Int.tdiv
                (flexMainSize opts.direction bParent
                  - (((flexValidChildren children).length : Int) - 1) * opts.spacing)
                ((flexValidChildren children).length : Int)) →
        (((flexValidChildren children).length : Int) ∣
            (flexMainSize opts.direction bParent
              - (((flexValidChildren children).length : Int) - 1) * opts.spacing)) →
        ((applyFlexLayout opts bParent children).map
            (fun a => mainExtent opts.direction a.2)).sum
            + (((flexValidChildren children).length : Int) - 1) * opts.spacing
          = flexMainSize opts.direction bParent) := by
  have hlen : 0 < (flexValidChildren children).length := List.length_pos.mpr hne
  have ha : (applyFlexLayout opts bParent children).map (fun a => mainExtent opts.direction a.2)
      = (flexValidChildren children).map (fun c => max (minMain opts.direction c.2)
          (Int.tdiv
            (flexMainSize opts.direction bParent
              - (((flexValidChildren children).length : Int) - 1) * opts.spacing)
            ((flexValidChildren children).length : Int))) := by
    simp only [applyFlexLayout]
    rw [if_neg hne, hj]
    rw [if_pos rfl]
    rw [if_pos ⟨rfl, hlen⟩]
    rw [flexLoop_noWrap_mainSizes opts bParent _ _ _ _ hwrap]
    rw [if_neg (by simp [hne])]
    simp
  refine ⟨ha, fun h1 h2 => ?_⟩
  rw [ha]
  rw [List.map_congr_left (fun c hc => max_eq_right (h1 c hc))]
  rw [List.map_const']
  rw [List.sum_replicate]
  rw [nsmul_eq_mul]
  rw [Int.mul_tdiv_cancel' h2]
  ring

/-- C2 counterexample: container width 100, three children, justify stretch, spacing 0:
each child receives width 100 / 3 = 33 truncated, so the sum of assigned main extents
plus (n-1)*spacing is 99, not the container main size 100. -/
theorem flex_stretch_sum_counterexample :
    ((applyFlexLayout stretchOptions0 (RectI.mk 0 0 100 50) stretchChildren3).map
          (fun a => mainExtent FlexDirection.Row a.2)).sum
        + ((3 : Int) - 1) * 0
      ≠ flexMainSize FlexDirection.Row (RectI.mk 0 0 100 50) := by
  simp [applyFlexLayout, stretchOptions0, stretchChildren3, flexValidChildren, flexMainSize,
    getValidChildren, getValidChildrenGo, flexLoop, flushLine, prefMain, prefCross, flexMain,
    minMain, mainExtent]
  decide

theorem flex_stretch_sizes_and_sum_witness :
    ((applyFlexLayout stretchOptions10 (RectI.mk 0 0 320 50) stretchChildren3).map
          (fun a => mainExtent stretchOptions10.direction a.2)).sum
        + (((flexValidChildren stretchChildren3).length : Int) - 1) * stretchOptions10.spacing
      = flexMainSize stretchOptions10.direction (RectI.mk 0 0 320 50) :=
  (flex_stretch_sizes_and_sum stretchOptions10 (RectI.mk 0 0 320 50) stretchChildren3 rfl rfl
      (by decide)).2 (by decide) ⟨100, by decide⟩

theorem mem_flushLine (opts : FlexOptions) (remaining totalFlexible stretchSize : Int)
    (si : Bool) (crossPos lineCross : Int) :
    ∀ (line : List (Nat × WPreferredSize)) (lp : Int) (i : Nat) (r : RectI),
      (i, r) ∈ flushLine opts remaining totalFlexible stretchSize si crossPos lineCross
          line lp →
      ∃ p, (i, p) ∈ line := by
  intro line
  induction line with
  | nil => intro lp i r h; simp [flushLine] at h
  | cons c rest ih =>
      intro lp i r h
      obtain ⟨j, pref⟩ := c
      simp only [flushLine, List.mem_cons] at h
      rcases h with h | h
      · injection h with h1 _
        subst h1
        exact ⟨pref, List.mem_cons_self _ _⟩
      · obtain ⟨p, hp⟩ := ih _ _ _ h
        exact ⟨p, List.mem_cons_of_mem _ hp⟩

theorem mem_flexLoop (opts : FlexOptions) (bParent : RectI)
    (remaining totalFlexible stretchSize : Int) (si : Bool) (mainSize : Int) :
    ∀ (cs line : List (Nat × WPreferredSize)) (mp cp lc um : Int) (i : Nat) (r : RectI),
      (i, r) ∈ flexLoop opts bParent remaining totalFlexible stretchSize si mainSize cs
          line mp cp lc um →
      (∃ p, (i, p) ∈ line) ∨ (∃ p, (i, p) ∈ cs) := by
  intro cs
  induction cs with
  | nil =>
      intro line mp cp lc um i r h
      simp only [flexLoop] at h
      by_cases hl : line = []
      · rw [if_pos hl] at h
        simp at h
      · rw [if_neg hl] at h
        exact Or.inl (mem_flushLine _ _ _ _ _ _ _ _ _ _ _ h)
  | cons c rest ih =>
      intro line mp cp lc um i r h
      obtain ⟨j, pref⟩ := c
      simp only [flexLoop] at h
      by_cases hc : opts.wrap = FlexWrap.Wrap
          ∧ mainSize < um + prefMain opts.direction pref ∧ line ≠ []
      · rw [if_pos hc] at h
        rcases List.mem_append.mp h with h | h
        · exact Or.inl (mem_flushLine _ _ _ _ _ _ _ _ _ _ _ h)
        · rcases ih _ _ _ _ _ _ _ h with h' | h'
          · obtain ⟨p, hp⟩ := h'
            simp only [List.mem_singleton, Prod.mk.injEq] at hp
            exact Or.inr ⟨pref, by rw [hp.1]; exact List.mem_cons_self _ _⟩
          · obtain ⟨p, hp⟩ := h'
            exact Or.inr ⟨p, List.mem_cons_of_mem _ hp⟩
      · rw [if_neg hc] at h
        rcases ih _ _ _ _ _ _ _ h with h' | h'
        · obtain ⟨p, hp⟩ := h'
          rcases List.mem_append.mp hp with h2 | h2
          · exact Or.inl ⟨p, h2⟩
          · simp only [List.mem_singleton, Prod.mk.injEq] at h2
            exact Or.inr ⟨pref, by rw [h2.1]; exact List.mem_cons_self _ _⟩
        · obtain ⟨p, hp⟩ := h'
          exact Or.inr ⟨p, List.mem_cons_of_mem _ hp⟩

theorem mem_getValidChildrenGo :
    ∀ (cs : List WComponent) (k i : Nat) (d : BaseData),
      (i, d) ∈ getValidChildrenGo k cs →
      ∃ j, i = k + j ∧ cs[j]? = some (WComponent.base d) ∧ d.ps.ignoreLayout = false := by
  intro cs
  induction cs with
  | nil => intro k i d h; simp [getValidChildrenGo] at h
  | cons c rest ih =>
      intro k i d h
      cases c with
      | base dc =>
          simp only [getValidChildrenGo] at h
          by_cases hig : dc.ps.ignoreLayout
          · rw [if_pos hig] at h
            obtain ⟨j, hj, hg, hi⟩ := ih (k+1) i d h
            exact ⟨j+1, by omega, by simpa using hg, hi⟩
          · rw [if_neg hig] at h
            rcases List.mem_cons.mp h with h | h
            · injection h with h1 h2
              subst h1
              subst h2
              exact ⟨0, by omega, by simp, by simpa using hig⟩
            · obtain ⟨j, hj, hg, hi⟩ := ih (k+1) i d h
              exact ⟨j+1, by omega, by simpa using hg, hi⟩
      | plain =>
          simp only [getValidChildrenGo] at h
          obtain ⟨j, hj, hg, hi⟩ := ih (k+1) i d h
          exact ⟨j+1, by omega, by simpa using hg, hi⟩

theorem valid_index_not_ignored (children : List WComponent) (i : Nat) (d : BaseData)
    (h : (i, d) ∈ getValidChildren children) :
    children[i]? = some (WComponent.base d) ∧ d.ps.ignoreLayout = false := by
  obtain ⟨j, hj, hg, hi⟩ := mem_getValidChildrenGo children 0 i d h
  have hji : j = i := by omega
  subst hji
  exact ⟨hg, hi⟩

/-- C9: a layout pass over an empty valid-child set (both WFlexLayout::applyLayout and
the default WParentLayout::applyLayout) performs no setBounds call at all, and a child
with ignoreLayout = true is excluded from every pass: no pass ever assigns bounds to its
index, and no error is raised (both passes are total functions). -/
theorem layout_empty_noop_and_ignoreLayout_excluded (opts : FlexOptions) (bParent : RectI)
    (children : List WComponent) :
    (getValidChildren children = [] →
      applyFlexLayout opts bParent children = [] ∧ parentApplyLayout bParent children = [])
    ∧ (∀ (i : Nat) (d : BaseData), children[i]? = some (WComponent.base d) →
        d.ps.ignoreLayout = true →
        ∀ r : RectI, (i, r) ∉ applyFlexLayout opts bParent children ∧
          (i, r) ∉ parentApplyLayout bParent children) := by
  constructor
  · intro h
    constructor
    · simp [applyFlexLayout, flexValidChildren, h]
    · simp [parentApplyLayout, h]
  · intro i d hget hig r
    have key : ∀ d', (i, d') ∈ getValidChildren children → False := by
      intro d' hmem
      obtain ⟨hg, hi⟩ := valid_index_not_ignored children i d' hmem
      rw [hget] at hg
      injection hg with hg
      injection hg with hg
      rw [← hg] at hi
      rw [hig] at hi
      simp at hi
    constructor
    · intro hmem
      by_cases hv : flexValidChildren children = []
      · simp [applyFlexLayout, hv] at hmem
      · simp only [applyFlexLayout] at hmem
        rw [if_neg hv] at hmem
        rcases mem_flexLoop _ _ _ _ _ _ _ _ _ _ _ _ _ _ _ hmem with h' | h'
        · obtain ⟨p, hp⟩ := h'
          simp at hp
        · obtain ⟨p, hp⟩ := h'
          simp only [flexValidChildren, List.mem_map] at hp
          obtain ⟨⟨i', d'⟩, hmem', heq⟩ := hp
          obtain ⟨h1, _⟩ := Prod.mk.injEq .. ▸ heq
          exact key d' (h1 ▸ hmem')
    · intro hmem
      simp only [parentApplyLayout, List.mem_map] at hmem
      obtain ⟨⟨i', d'⟩, hmem', heq⟩ := hmem
      obtain ⟨h1, _⟩ := Prod.mk.injEq .. ▸ heq
      exact key d' (h1 ▸ hmem')

/-- Witness for layout_empty_noop_and_ignoreLayout_excluded: with a single ignored child
the valid set is empty, both passes perform no setBounds call, and the ignored child's
index never receives bounds. -/
theorem layout_empty_noop_witness :
    applyFlexLayout stretchOptions0 (RectI.mk 0 0 100 50) ignoredOnlyChildren = [] ∧
    parentApplyLayout (RectI.mk 0 0 100 50) ignoredOnlyChildren = [] ∧
    (0, RectI.mk 1 2 3 4) ∉ applyFlexLayout stretchOptions0 (RectI.mk 0 0 100 50)
      ignoredOnlyChildren := by
  have h := layout_empty_noop_and_ignoreLayout_excluded stretchOptions0 (RectI.mk 0 0 100 50)
    ignoredOnlyChildren
  have h0 := h.1 rfl
  exact ⟨h0.1, h0.2,
    (h.2 0 (BaseData.mk (WPreferredSize.mk true 0 0 50 20 0 0) WLayout.ctor) rfl rfl
      (RectI.mk 1 2 3 4)).1⟩

theorem buildLinesGo_bound (dir : FlexDirection) (mainSize spacing : Int)
    (hm : 0 ≤ mainSize) :
    ∀ (cs lineChildren : List (Nat × WPreferredSize)) (usedMain : Int),
      (∀ c ∈ cs, 0 ≤ prefMain dir c.2) →
      (∀ c ∈ lineChildren, 0 ≤ prefMain dir c.2) →
      usedMain = (lineChildren.map (fun c => prefMain dir c.2)).sum
        + (lineChildren.length : Int) * spacing →
      (∀ x t, lineChildren = x :: t →
        lineUsage dir spacing lineChildren ≤ mainSize + prefMain dir x.2) →
      ∀ l ∈ buildLinesGo FlexWrap.Wrap dir mainSize spacing cs lineChildren usedMain,
        ∃ x t, l = x :: t ∧ lineUsage dir spacing l ≤ mainSize + prefMain dir x.2 := by
  intro cs
  induction cs with
  | nil =>
      intro line um _ _ _ hbound l hl
      simp only [buildLinesGo] at hl
      by_cases h : line = []
      · rw [if_pos h] at hl
        simp at hl
      · rw [if_neg h] at hl
        simp only [List.mem_singleton] at hl
        subst hl
        obtain ⟨x, t, hxt⟩ := List.exists_cons_of_ne_nil h
        exact ⟨x, t, hxt, hbound x t hxt⟩
  | cons c rest ih =>
      intro line um hcs hline hum hbound l hl
      simp only [buildLinesGo] at hl
      have hc0 : 0 ≤ prefMain dir c.2 := hcs c (List.mem_cons_self _ _)
      by_cases hc : mainSize < um + prefMain dir c.2 ∧ line ≠ []
      · rw [if_pos ⟨trivial, hc.1, hc.2⟩] at hl
        rcases List.mem_cons.mp hl with h | h
        · subst h
          obtain ⟨x, t, hxt⟩ := List.exists_cons_of_ne_nil hc.2
          exact ⟨x, t, hxt, hbound x t hxt⟩
        · refine ih [c] _ (fun x hx => hcs x (List.mem_cons_of_mem _ hx)) ?_ ?_ ?_ l h
          · intro x hx
            simp only [List.mem_singleton] at hx
            subst hx
            exact hc0
          · simp
          · intro x t hxt
            injection hxt with h1 h2
            subst h1
            simp [lineUsage]
            linarith
      · have hcond : ¬(True ∧ mainSize < um + prefMain dir c.2 ∧ line ≠ []) := by
          intro hh
          exact hc ⟨hh.2.1, hh.2.2⟩
        rw [if_neg hcond] at hl
        refine ih (line ++ [c]) _ (fun x hx => hcs x (List.mem_cons_of_mem _ hx)) ?_ ?_ ?_ l hl
        · intro x hx
          rcases List.mem_append.mp hx with h2 | h2
          · exact hline x h2
          · simp only [List.mem_singleton] at h2
            subst h2
            exact hc0
        · simp only [List.map_append, List.sum_append, List.length_append, hum]
          push_cast
          simp
          ring
        · intro x t hxt
          rcases line with _ | ⟨a, t'⟩
          · simp only [List.nil_append] at hxt
            injection hxt with h1 h2
            subst h1
            simp [lineUsage]
            linarith
          · have hle : um + prefMain dir c.2 ≤ mainSize :=
              not_lt.mp (fun hlt => hc ⟨hlt, by simp⟩)
            simp only [List.cons_append] at hxt
            injection hxt with h1 h2
            subst h1
            have ha0 : 0 ≤ prefMain dir a.2 := hline a (List.mem_cons_self _ _)
            simp only [lineUsage, List.cons_append, List.map_append, List.map_cons,
              List.sum_append, List.sum_cons, List.length_append, List.length_cons,
              List.map_nil, List.sum_nil, List.length_nil] at hum ⊢
            push_cast at hum ⊢
            linarith

/-- C8: with wrapping enabled, every line the packing loop produces is non-empty and its
cumulative main-axis usage exceeds the container's main size by at most its first child's
preferred main extent: a new line starts whenever adding the next child would overflow a
non-empty line, so only a line's first child can overflow. Assumes a well-formed input:
non-negative container main size and non-negative preferred extents. -/
theorem flex_wrap_line_overflow_bound (dir : FlexDirection) (mainSize spacing : Int)
    (cs : List (Nat × WPreferredSize)) (hm : 0 ≤ mainSize)
    (hext : ∀ c ∈ cs, 0 ≤ prefMain dir c.2) :
    ∀ l ∈ buildLines FlexWrap.Wrap dir mainSize spacing cs,
      ∃ x t, l = x :: t ∧ lineUsage dir spacing l ≤ mainSize + prefMain dir x.2 := by
  intro l hl
  exact buildLinesGo_bound dir mainSize spacing hm cs [] 0 hext (by simp) (by simp)
    (by intro x t h; simp at h) l hl

/-- Witness for flex_wrap_line_overflow_bound: container main size 100, spacing 10,
children of widths 60, 60, 30 wrap into lines [60] and [60, 30]; the second line's usage
stays within 100 + 60. -/
theorem flex_wrap_line_overflow_bound_witness :
    lineUsage FlexDirection.Row 10 [(1, wrapPS 60), (2, wrapPS 30)]
      ≤ 100 + prefMain FlexDirection.Row (wrapPS 60) := by
  have h := flex_wrap_line_overflow_bound FlexDirection.Row 100 10 wrapChildrenPS
    (by decide) (by decide) [(1, wrapPS 60), (2, wrapPS 30)] (by decide)
  obtain ⟨x, t, hxt, hb⟩ := h
  injection hxt with h1 h2
  subst h1
  simpa using hb

theorem count_eq_one_of_nodup_mem {m : List LPtr} (hm : m.Nodup) {x : LPtr} (hx : x ∈ m) :
    m.count x = 1 := by
  induction m with
  | nil => simp at hx
  | cons a t ih =>
      rw [List.nodup_cons] at hm
      rcases List.mem_cons.mp hx with rfl | hx2
      · rw [List.count_cons_self, List.count_eq_zero.mpr hm.1]
      · have hne : x ≠ a := by
          intro h
          rw [h] at hx2
          exact hm.1 hx2
        rw [List.count_cons_of_ne hne]
        exact ih hm.2 hx2

/-- C10: every reachable WPreferredSize listener list is duplicate-free and null-free,
so a notifying mutation invokes each registered listener exactly once; moreover
addListener is idempotent on null or already-registered listeners and removeListener
erases every occurrence. -/
theorem preferredSize_listeners_invariant :
    (∀ ls : List LPtr, ListenersReachable ls →
      ls.Nodup ∧ (none : LPtr) ∉ ls ∧ ∀ l ∈ ls, (notifyCalls ls).count l = 1)
    ∧ (∀ (ls : List LPtr) (l : LPtr), l = none ∨ l ∈ ls → addListener ls l = ls)
    ∧ (∀ (ls : List LPtr) (l : LPtr), l ∉ removeListener ls l) := by
  have main : ∀ ls : List LPtr, ListenersReachable ls →
      ls.Nodup ∧ (none : LPtr) ∉ ls := by
    intro ls h
    induction h with
    | nil => simp
    | add ls l _ ih =>
        unfold addListener
        by_cases h0 : l = none
        · rw [if_pos h0]
          exact ih
        · rw [if_neg h0]
          by_cases h1 : l ∈ ls
          · rw [if_pos h1]
            exact ih
          · rw [if_neg h1]
            constructor
            · simp [List.nodup_append, ih.1, h1]
            · simp only [List.mem_append, List.mem_singleton]
              rintro (h2 | h2)
              · exact ih.2 h2
              · exact h0 h2.symm
    | remove ls l _ ih =>
        exact ⟨ih.1.filter _, fun hmem => ih.2 (List.mem_of_mem_filter hmem)⟩
  refine ⟨?_, ?_, ?_⟩
  · intro ls h
    obtain ⟨hnd, hnn⟩ := main ls h
    refine ⟨hnd, hnn, ?_⟩
    intro l hl
    have hfil : notifyCalls ls = ls := by
      unfold notifyCalls
      apply List.filter_eq_self.mpr
      intro x hx
      simp only [decide_eq_true_eq]
      intro hx0
      exact hnn (hx0 ▸ hx)
    rw [hfil]
    exact count_eq_one_of_nodup_mem hnd hl
  · intro ls l h
    unfold addListener
    rcases h with h | h
    · rw [if_pos h]
    · by_cases h0 : l = none
      · rw [if_pos h0]
      · rw [if_neg h0, if_pos h]
  · intro ls l hmem
    have := List.of_mem_filter hmem
    simp at this

/-- Witness for preferredSize_listeners_invariant: the reachable one-element list
[some 3], re-adding an element, and removing it. -/
theorem preferredSize_listeners_invariant_witness :
    (addListener [] (some 3)).Nodup ∧
    (notifyCalls (addListener [] (some 3))).count (some 3) = 1 ∧
    addListener [some 3] (some 3) = [some 3] ∧
    some 3 ∉ removeListener [some 3, some 5] (some 3) := by
  have h := preferredSize_listeners_invariant
  have hr : ListenersReachable (addListener [] (some 3)) :=
    ListenersReachable.add [] (some 3) ListenersReachable.nil
  exact ⟨(h.1 (addListener [] (some 3)) hr).1,
    (h.1 (addListener [] (some 3)) hr).2.2 (some 3) (by decide),
    h.2.1 [some 3] (some 3) (Or.inr (List.mem_singleton.mpr rfl)),
    h.2.2 [some 3, some 5] (some 3)⟩
